import Mathlib

/-!
# Verification of the CPU-scheduling simulator (`parta.c`)

Shallow embedding of the scheduling engine: the process control block
(`struct pcb`), table construction (`init_procs`), the shared run-step
primitive (`run_proc`), the FCFS scheduler (`fcfs_run`), the round-robin
next-candidate scan (`rr_next`) and the round-robin scheduler (`rr_run`).

Modelling conventions:
* C `int` values are modelled as `Int` (signed overflow in C is undefined
  behaviour and never reached on the inputs the theorems quantify over).
* A PCB array plus its length `plen` is modelled as a `List pcb`; every
  call site in the C program passes the list's true length for `plen`.
* The C sentinel return `-1` of `rr_next` is modelled as `none`; the
  modulo-by-zero `(current + 1) % plen` that `rr_next` performs when
  `plen = 0` is undefined behaviour in C and is modelled as
  `Except.error ()`.
* The out-of-range read `procs[current]` that `rr_run` performs when
  `current >= plen` (reachable only for `plen = 0`) is modelled by the
  explicit result `RRResult.ub`.
* The two C `while` loops are modelled with an explicit iteration budget
  (`fuel`).  For `rr_next` the budget `plen` is exact: the scan stops at
  `next == start` after at most `plen` probes, so the `fuel = 0` branch
  is unreachable.  For `rr_run` the budget `sum of bursts + 1` is proved
  sufficient (`RRResult.timeout` is proved unreachable for the runs the
  theorems are about).
-/

/-- `struct pcb` from `parta.h`: process id, remaining burst, accumulated
wait, each a C `int`. -/
structure pcb where
  pid : Int
  burst_left : Int
  wait : Int
deriving DecidableEq, Repr

/-- Reading slot `i` of the PCB array.  All reads proved about are in
range; the default is never observable there. -/
def getp (procs : List pcb) (i : Nat) : pcb :=
  procs.getD i { pid := 0, burst_left := 0, wait := 0 }

/-- Helper for `init_procs`: builds the PCBs from position `k` onwards,
mirroring the initialisation loop `procs[i].pid = i; procs[i].burst_left
= bursts[i]; procs[i].wait = 0`. -/
def init_procs_go (k : Nat) : List Int → List pcb
  | [] => []
  | b :: bs => { pid := (k : Int), burst_left := b, wait := 0 } :: init_procs_go (k + 1) bs

/-- `init_procs` from `parta.c` (the `malloc` failure path returns no
table at all and is outside the scheduling claims). -/
def init_procs (bursts : List Int) : List pcb :=
  init_procs_go 0 bursts

/-- Helper for `run_proc`: one pass over the array computing each slot's
new value, `k` being the index of the first slot of the sublist.  The C
function first decrements the target's `burst_left` and then loops over
the other indices adding `amount` to the `wait` of those with
`burst_left > 0`; since the loop skips the target, the two writes touch
disjoint slots and a single indexed pass computes the same array. -/
def run_proc_go (current : Nat) (amount : Int) (k : Nat) : List pcb → List pcb
  | [] => []
  | p :: ps =>
    (if k = current then { p with burst_left := p.burst_left - amount }
     else if 0 < p.burst_left then { p with wait := p.wait + amount }
     else p) :: run_proc_go current amount (k + 1) ps

/-- `run_proc` from `parta.c`. -/
def run_proc (procs : List pcb) (current : Nat) (amount : Int) : List pcb :=
  run_proc_go current amount 0 procs

/-- Helper for `fcfs_run`: the `for` loop from index `i` with accumulator
`t`; `plen` is the length parameter the C function receives. -/
def fcfs_go (plen : Nat) (procs : List pcb) (i : Nat) (t : Int) : List pcb × Int :=
  if _h : i < plen then
    fcfs_go plen (run_proc procs i (getp procs i).burst_left) (i + 1)
      (t + (getp procs i).burst_left)
  else
    (procs, t)
termination_by plen - i

/-- `fcfs_run` from `parta.c`: final table together with the returned
total elapsed time. -/
def fcfs_run (procs : List pcb) : List pcb × Int :=
  fcfs_go procs.length procs 0 0

/-- Helper for `rr_next`: the scanning `while` loop.  `start` is the
first probed position, `next` the current probe; the budget `plen` is
exact (the loop returns `-1` at `next == start` after at most `plen`
probes), so the `0` branch is unreachable. -/
def rr_next_go (procs : List pcb) (start : Nat) (next : Nat) : Nat → Option Nat
  | 0 => none
  | fuel + 1 =>
    if (getp procs next).burst_left = 0 then
      if (next + 1) % procs.length = start then none
      else rr_next_go procs start ((next + 1) % procs.length) fuel
    else some next

/-- `rr_next` from `parta.c`.  The C return value `-1` is `ok none`; on
an empty table the very first statement `(current + 1) % plen` divides
by zero, which is `error ()`. -/
def rr_next (current : Nat) (procs : List pcb) : Except Unit (Option Nat) :=
  if procs.length = 0 then Except.error ()
  else Except.ok (rr_next_go procs ((current + 1) % procs.length)
    ((current + 1) % procs.length) procs.length)

/-- Result of a round-robin run: `done table time` is the C return;
`ub` marks the undefined behaviour the C program has on an out-of-range
`procs[current]` read or a modulo by zero inside `rr_next`; `timeout`
marks an exhausted iteration budget (proved unreachable). -/
inductive RRResult where
  | ub : RRResult
  | timeout : RRResult
  | done : List pcb → Int → RRResult
deriving DecidableEq, Repr

/-- Helper for `rr_run`: the `while (1)` loop.  Each iteration runs the
current process for `min(burst_left, quantum)` when it is still live,
then consults `rr_next`; the C code calls `rr_next` once after the
conditional body, which is reproduced here in both branches. -/
def rr_run_go (quantum : Int) (procs : List pcb) (current : Nat) (t : Int) :
    Nat → RRResult
  | 0 => RRResult.timeout
  | fuel + 1 =>
    if current < procs.length then
      if 0 < (getp procs current).burst_left then
        let amount := if (getp procs current).burst_left < quantum then
          (getp procs current).burst_left else quantum
        match rr_next current (run_proc procs current amount) with
        | Except.error _ => RRResult.ub
        | Except.ok none => RRResult.done (run_proc procs current amount) (t + amount)
        | Except.ok (some next) =>
          rr_run_go quantum (run_proc procs current amount) next (t + amount) fuel
      else
        match rr_next current procs with
        | Except.error _ => RRResult.ub
        | Except.ok none => RRResult.done procs t
        | Except.ok (some next) => rr_run_go quantum procs next t fuel
    else RRResult.ub

/-- Total remaining burst of the table. -/
def sumBursts (procs : List pcb) : Int :=
  (procs.map pcb.burst_left).sum

/-- `rr_run` from `parta.c`, with iteration budget `sum of bursts + 1`:
one iteration may find the initial index already complete, and every
other iteration runs a live process for at least one time unit. -/
def rr_run (procs : List pcb) (quantum : Int) : RRResult :=
  rr_run_go quantum procs 0 0 ((sumBursts procs).toNat + 1)

/-- The loop invariant of both schedulers on a table built from
`bursts`, after the processes of index `< i` have been run to
completion in index order: slot `j` still holds its initial burst if
`i ≤ j` and `0` otherwise, and has waited for every burst run so far
while it was incomplete. -/
def SchedInv (bursts : List Int) (i : Nat) (procs : List pcb) (t : Int) : Prop :=
  procs.length = bursts.length ∧ t = (bursts.take i).sum ∧
  ∀ j, j < bursts.length →
    getp procs j = ⟨(j : Int), (if i ≤ j then bursts.getD j 0 else 0),
      (if 0 < bursts.getD j 0 then (bursts.take (min i j)).sum else 0)⟩

theorem getp_eq_get (l : List pcb) (i : Nat) (h : i < l.length) :
    getp l i = l.get ⟨i, h⟩ := by
  simp [getp, List.getElem?_eq_getElem h]

theorem length_run_proc_go (c : Nat) (a : Int) :
    ∀ (k : Nat) (l : List pcb), (run_proc_go c a k l).length = l.length := by
  intro k l
  induction l generalizing k with
  | nil => rfl
  | cons p ps ih => simp [run_proc_go, ih]

theorem length_run_proc (procs : List pcb) (c : Nat) (a : Int) :
    (run_proc procs c a).length = procs.length :=
  length_run_proc_go c a 0 procs

theorem getp_run_proc_go (c : Nat) (a : Int) :
    ∀ (k : Nat) (l : List pcb) (i : Nat), i < l.length →
      getp (run_proc_go c a k l) i =
        (if k + i = c then
          { getp l i with burst_left := (getp l i).burst_left - a }
         else if 0 < (getp l i).burst_left then
          { getp l i with wait := (getp l i).wait + a }
         else getp l i) := by
  intro k l
  induction l generalizing k with
  | nil => intro i hi; simp at hi
  | cons p ps ih =>
    intro i hi
    cases i with
    | zero => simp [run_proc_go, getp, List.getD]
    | succ i =>
      have hi' : i < ps.length := by simpa using hi
      have := ih (k + 1) i hi'
      simpa [run_proc_go, getp, List.getD, Nat.add_assoc, Nat.add_comm 1 i] using this

theorem getp_run_proc (procs : List pcb) (c : Nat) (a : Int) (i : Nat)
    (hi : i < procs.length) :
    getp (run_proc procs c a) i =
      (if i = c then
        { getp procs i with burst_left := (getp procs i).burst_left - a }
       else if 0 < (getp procs i).burst_left then
        { getp procs i with wait := (getp procs i).wait + a }
       else getp procs i) := by
  simpa using getp_run_proc_go c a 0 procs i hi

theorem getp_mem (l : List pcb) (i : Nat) (h : i < l.length) : getp l i ∈ l := by
  rw [getp_eq_get l i h]; exact List.get_mem l i h

theorem getp_cons_zero (p : pcb) (ps : List pcb) : getp (p :: ps) 0 = p := rfl

theorem getp_cons_succ (p : pcb) (ps : List pcb) (i : Nat) :
    getp (p :: ps) (i + 1) = getp ps i := rfl

theorem sumBursts_cons (p : pcb) (ps : List pcb) :
    sumBursts (p :: ps) = p.burst_left + sumBursts ps := by
  simp [sumBursts]

theorem sumBursts_run_proc_go (c : Nat) (a : Int) :
    ∀ (k : Nat) (l : List pcb),
      sumBursts (run_proc_go c a k l) =
        sumBursts l - (if k ≤ c ∧ c < k + l.length then a else 0) := by
  intro k l
  induction l generalizing k with
  | nil => simp [run_proc_go, sumBursts]
  | cons p ps ih =>
    rw [run_proc_go, sumBursts_cons, sumBursts_cons, ih (k + 1)]
    simp only [List.length_cons]
    by_cases hk : k = c
    · subst hk
      rw [if_pos rfl, if_neg (by omega : ¬(k + 1 ≤ k ∧ k < k + 1 + ps.length)),
        if_pos (by omega : k ≤ k ∧ k < k + (ps.length + 1))]
      simp
      ring
    · rw [if_neg hk]
      have hsplit : (k + 1 ≤ c ∧ c < k + 1 + ps.length) ↔
          (k ≤ c ∧ c < k + (ps.length + 1)) := by omega
      by_cases hin : k ≤ c ∧ c < k + (ps.length + 1)
      · rw [if_pos hin, if_pos (hsplit.mpr hin)]
        by_cases hb : 0 < p.burst_left
        · rw [if_pos hb]; simp; try omega
        · rw [if_neg hb]; try omega
      · rw [if_neg hin, if_neg (fun h => hin (hsplit.mp h))]
        by_cases hb : 0 < p.burst_left
        · rw [if_pos hb]; simp; try omega
        · rw [if_neg hb]; try omega

theorem sumBursts_run_proc (procs : List pcb) (c : Nat) (a : Int)
    (hc : c < procs.length) :
    sumBursts (run_proc procs c a) = sumBursts procs - a := by
  rw [run_proc, sumBursts_run_proc_go]
  rw [if_pos (⟨Nat.zero_le c, by omega⟩ : 0 ≤ c ∧ c < 0 + procs.length)]

theorem length_init_procs_go : ∀ (k : Nat) (bs : List Int),
    (init_procs_go k bs).length = bs.length := by
  intro k bs
  induction bs generalizing k with
  | nil => rfl
  | cons b bs ih => simp [init_procs_go, ih]

theorem length_init_procs (bursts : List Int) :
    (init_procs bursts).length = bursts.length :=
  length_init_procs_go 0 bursts

theorem getp_init_procs_go : ∀ (k : Nat) (bs : List Int) (i : Nat), i < bs.length →
    getp (init_procs_go k bs) i = ⟨((k + i : Nat) : Int), bs.getD i 0, 0⟩ := by
  intro k bs
  induction bs generalizing k with
  | nil => intro i hi; simp at hi
  | cons b bs ih =>
    intro i hi
    cases i with
    | zero =>
      rw [init_procs_go, getp_cons_zero]
      simp
    | succ i =>
      have hi' : i < bs.length := by simpa using hi
      rw [init_procs_go, getp_cons_succ, ih (k + 1) i hi', List.getD_cons_succ]
      have hk : k + 1 + i = k + (i + 1) := by omega
      rw [hk]

theorem getp_init_procs (bursts : List Int) (i : Nat) (hi : i < bursts.length) :
    getp (init_procs bursts) i = ⟨(i : Int), bursts.getD i 0, 0⟩ := by
  simpa using getp_init_procs_go 0 bursts i hi

theorem map_burst_init_procs_go : ∀ (k : Nat) (bs : List Int),
    (init_procs_go k bs).map pcb.burst_left = bs := by
  intro k bs
  induction bs generalizing k with
  | nil => rfl
  | cons b bs ih => simp [init_procs_go, ih]

theorem sumBursts_init_procs (bursts : List Int) :
    sumBursts (init_procs bursts) = bursts.sum := by
  rw [sumBursts, init_procs, map_burst_init_procs_go]

theorem circular_cover (len start : Nat) (hs : start < len) (i : Nat) (hi : i < len) :
    ∃ m, m < len ∧ (start + m) % len = i := by
  by_cases h : start ≤ i
  · refine ⟨i - start, by omega, ?_⟩
    have : start + (i - start) = i := by omega
    rw [this, Nat.mod_eq_of_lt hi]
  · refine ⟨len + i - start, by omega, ?_⟩
    have : start + (len + i - start) = len + i := by omega
    rw [this, Nat.add_mod_left, Nat.mod_eq_of_lt hi]

theorem rr_next_go_spec (procs : List pcb) (start : Nat)
    (hstart : start < procs.length) :
    ∀ (fuel d : Nat), fuel + d = procs.length →
      (∀ m, m < d → (getp procs ((start + m) % procs.length)).burst_left = 0) →
      (rr_next_go procs start ((start + d) % procs.length) fuel = none →
          ∀ m, m < procs.length →
            (getp procs ((start + m) % procs.length)).burst_left = 0)
      ∧ (∀ j, rr_next_go procs start ((start + d) % procs.length) fuel = some j →
          j < procs.length ∧ (getp procs j).burst_left ≠ 0 ∧
          ∃ k, d ≤ k ∧ k < procs.length ∧ j = (start + k) % procs.length ∧
            ∀ m, m < k →
              (getp procs ((start + m) % procs.length)).burst_left = 0) := by
  intro fuel
  induction fuel with
  | zero =>
    intro d hd hzero
    constructor
    · intro _ m hm
      exact hzero m (by omega)
    · intro j hj
      simp [rr_next_go] at hj
  | succ fuel ih =>
    intro d hd hzero
    have hlen : 0 < procs.length := by omega
    by_cases h0 : (getp procs ((start + d) % procs.length)).burst_left = 0
    · have hzero' : ∀ m, m < d + 1 →
          (getp procs ((start + m) % procs.length)).burst_left = 0 := by
        intro m hm
        rcases Nat.lt_or_ge m d with hlt | hge
        · exact hzero m hlt
        · have : m = d := by omega
          rw [this]; exact h0
      have hstep : ((start + d) % procs.length + 1) % procs.length =
          (start + (d + 1)) % procs.length := by
        rw [Nat.mod_add_mod, Nat.add_assoc]
      by_cases heq : ((start + d) % procs.length + 1) % procs.length = start
      · -- full circle: d + 1 must be a positive multiple of the length, so d + 1 = len
        have hmod : (start + (d + 1)) % procs.length = start % procs.length := by
          rw [← hstep, heq, Nat.mod_eq_of_lt hstart]
        have hdvd : procs.length ∣ (start + (d + 1)) - start := by
          have hle : start ≤ start + (d + 1) := by omega
          exact (Nat.modEq_iff_dvd' hle).mp hmod.symm
        have hd1 : d + 1 = procs.length := by
          have h1 : procs.length ∣ d + 1 := by simpa using hdvd
          have h2 : procs.length ≤ d + 1 := Nat.le_of_dvd (by omega) h1
          omega
      -- here the loop returns none with all positions scanned
        constructor
        · intro _ m hm
          exact hzero' m (by omega)
        · intro j hj
          rw [rr_next_go, if_pos h0, if_pos heq] at hj
          simp at hj
      · have hrec := ih (d + 1) (by omega) hzero'
        constructor
        · intro hnone
          rw [rr_next_go, if_pos h0, if_neg heq, hstep] at hnone
          exact hrec.1 hnone
        · intro j hj
          rw [rr_next_go, if_pos h0, if_neg heq, hstep] at hj
          obtain ⟨hj1, hj2, k, hk1, hk2, hk3, hk4⟩ := hrec.2 j hj
          exact ⟨hj1, hj2, k, by omega, hk2, hk3, hk4⟩
    · constructor
      · intro hnone
        rw [rr_next_go, if_neg h0] at hnone
        simp at hnone
      · intro j hj
        rw [rr_next_go, if_neg h0] at hj
        have hj' : j = (start + d) % procs.length := by
          simpa using hj.symm
        subst hj'
        refine ⟨Nat.mod_lt _ hlen, h0, d, le_refl d, ?_, rfl, hzero⟩
        by_contra hdlen
        have : procs.length ≤ d := by omega
        omega

theorem rr_next_spec (current : Nat) (procs : List pcb) (hlen : 0 < procs.length) :
    (rr_next current procs = Except.ok none →
        ∀ i, i < procs.length → (getp procs i).burst_left = 0)
    ∧ (∀ j, rr_next current procs = Except.ok (some j) →
        j < procs.length ∧ (getp procs j).burst_left ≠ 0 ∧
        ∃ k, k < procs.length ∧ j = ((current + 1) % procs.length + k) % procs.length ∧
          ∀ m, m < k →
            (getp procs (((current + 1) % procs.length + m) % procs.length)).burst_left
              = 0)
    ∧ (∃ r, rr_next current procs = Except.ok r) := by
  have hne : ¬procs.length = 0 := by omega
  have hstart : (current + 1) % procs.length < procs.length := Nat.mod_lt _ hlen
  have hzero0 : (((current + 1) % procs.length + 0) % procs.length) =
      (current + 1) % procs.length := by
    rw [Nat.add_zero, Nat.mod_eq_of_lt hstart]
  have hspec := rr_next_go_spec procs ((current + 1) % procs.length) hstart
    procs.length 0 (by omega) (by intro m hm; omega)
  rw [hzero0] at hspec
  refine ⟨?_, ?_, ?_⟩
  · intro hok i hi
    rw [rr_next, if_neg hne] at hok
    have hnone : rr_next_go procs ((current + 1) % procs.length)
        ((current + 1) % procs.length) procs.length = none := by
      injection hok
    have hall := hspec.1 hnone
    obtain ⟨m, hm, hmi⟩ := circular_cover procs.length ((current + 1) % procs.length)
      hstart i hi
    rw [← hmi]
    exact hall m hm
  · intro j hok
    rw [rr_next, if_neg hne] at hok
    have hsome : rr_next_go procs ((current + 1) % procs.length)
        ((current + 1) % procs.length) procs.length = some j := by
      injection hok
    obtain ⟨hj1, hj2, k, _, hk2, hk3, hk4⟩ := hspec.2 j hsome
    exact ⟨hj1, hj2, k, hk2, hk3, hk4⟩
  · rw [rr_next, if_neg hne]
    exact ⟨_, rfl⟩

theorem schedinv_init (bursts : List Int) : SchedInv bursts 0 (init_procs bursts) 0 := by
  refine ⟨length_init_procs bursts, by simp, ?_⟩
  intro j hj
  rw [getp_init_procs bursts j hj]
  have e1 : min 0 j = 0 := by omega
  simp [e1]

theorem schedinv_burst_at (bursts : List Int) (i : Nat) (procs : List pcb) (t : Int)
    (h : SchedInv bursts i procs t) (hi : i < bursts.length) :
    (getp procs i).burst_left = bursts.getD i 0 := by
  rw [h.2.2 i hi]
  simp

theorem sum_take_succ_getD (bursts : List Int) (i : Nat) (hi : i < bursts.length) :
    (bursts.take (i + 1)).sum = (bursts.take i).sum + bursts.getD i 0 := by
  rw [List.sum_take_succ bursts i hi, List.getD_eq_getElem _ _ hi]

theorem inv_step_run (bursts : List Int) (i : Nat) (procs : List pcb) (t : Int)
    (h : SchedInv bursts i procs t) (hi : i < bursts.length) :
    SchedInv bursts (i + 1) (run_proc procs i (bursts.getD i 0))
      (t + bursts.getD i 0) := by
  obtain ⟨hl, ht, hrec⟩ := h
  have hsum := sum_take_succ_getD bursts i hi
  refine ⟨by rw [length_run_proc, hl], by rw [hsum, ht], ?_⟩
  intro j hj
  have hjp : j < procs.length := by rw [hl]; exact hj
  rw [getp_run_proc procs i (bursts.getD i 0) j hjp]
  rw [hrec j hj]
  by_cases hji : j = i
  · subst hji
    have e1 : min j j = j := by omega
    have e2 : min (j + 1) j = j := by omega
    have e3 : ¬(j + 1 ≤ j) := by omega
    simp only [if_pos rfl, if_pos (le_refl j), if_neg e3, e1, e2, sub_self, if_true]
  · rcases Nat.lt_or_ge j i with hlt | hge
    · have e1 : ¬(i ≤ j) := by omega
      have e2 : ¬(i + 1 ≤ j) := by omega
      have e3 : min i j = j := by omega
      have e4 : min (i + 1) j = j := by omega
      have e5 : ¬((0 : Int) < 0) := by omega
      simp only [if_neg hji, if_neg e1, if_neg e2, if_neg e5, e3, e4]
    · have hij : i < j := by omega
      have e1 : i ≤ j := by omega
      have e2 : i + 1 ≤ j := by omega
      have e3 : min i j = i := by omega
      have e4 : min (i + 1) j = i + 1 := by omega
      by_cases hb : 0 < bursts.getD j 0
      · simp only [if_neg hji, if_pos e1, if_pos e2, if_pos hb, e3, e4, hsum]
      · simp only [if_neg hji, if_pos e1, if_pos e2, if_neg hb, e3, e4]

theorem schedinv_widen (bursts : List Int) (i : Nat) (procs : List pcb) (t : Int)
    (h : SchedInv bursts i procs t) (hi : bursts.length ≤ i) :
    SchedInv bursts bursts.length procs t := by
  obtain ⟨hl, ht, hrec⟩ := h
  refine ⟨hl, ?_, ?_⟩
  · rw [ht, List.take_of_length_le hi, List.take_length]
  · intro j hj
    rw [hrec j hj]
    have e1 : ¬(i ≤ j) := by omega
    have e2 : ¬(bursts.length ≤ j) := by omega
    have e3 : min i j = j := by omega
    have e4 : min bursts.length j = j := by omega
    simp [e1, e2, e3, e4]

theorem fcfs_go_inv (bursts : List Int) :
    ∀ (n i : Nat) (procs : List pcb) (t : Int), bursts.length - i = n →
      SchedInv bursts i procs t →
      SchedInv bursts bursts.length (fcfs_go bursts.length procs i t).1
        (fcfs_go bursts.length procs i t).2 := by
  intro n
  induction n with
  | zero =>
    intro i procs t hn hinv
    have hge : ¬ i < bursts.length := by omega
    rw [fcfs_go, dif_neg hge]
    exact schedinv_widen bursts i procs t hinv (by omega)
  | succ n ih =>
    intro i procs t hn hinv
    have hlt : i < bursts.length := by omega
    rw [fcfs_go, dif_pos hlt]
    rw [schedinv_burst_at bursts i procs t hinv hlt]
    exact ih (i + 1) _ _ (by omega) (inv_step_run bursts i procs t hinv hlt)

theorem fcfs_run_inv (bursts : List Int) :
    SchedInv bursts bursts.length (fcfs_run (init_procs bursts)).1
      (fcfs_run (init_procs bursts)).2 := by
  rw [fcfs_run, length_init_procs]
  exact fcfs_go_inv bursts (bursts.length - 0) 0 (init_procs bursts) 0 rfl
    (schedinv_init bursts)

theorem schedinv_unique (bursts : List Int) (l₁ l₂ : List pcb) (t₁ t₂ : Int)
    (h₁ : SchedInv bursts bursts.length l₁ t₁)
    (h₂ : SchedInv bursts bursts.length l₂ t₂) :
    l₁ = l₂ ∧ t₁ = t₂ := by
  constructor
  · apply List.ext_getElem (by rw [h₁.1, h₂.1])
    intro i hi₁ hi₂
    have hib : i < bursts.length := by rw [← h₁.1]; exact hi₁
    have g₁ := h₁.2.2 i hib
    have g₂ := h₂.2.2 i hib
    rw [getp_eq_get _ _ hi₁] at g₁
    rw [getp_eq_get _ _ hi₂] at g₂
    rw [List.get_eq_getElem] at g₁ g₂
    rw [g₁, g₂]
  · rw [h₁.2.1, h₂.2.1]

theorem getp_eq_getElem (l : List pcb) (i : Nat) (h : i < l.length) :
    getp l i = l[i] := by
  rw [getp_eq_get l i h, List.get_eq_getElem]

theorem nonneg_run_proc (procs : List pcb) (c : Nat) (a : Int)
    (hc : c < procs.length) (ha : a ≤ (getp procs c).burst_left)
    (h : ∀ i, i < procs.length → 0 ≤ (getp procs i).burst_left) :
    ∀ i, i < (run_proc procs c a).length →
      0 ≤ (getp (run_proc procs c a) i).burst_left := by
  intro i hi
  rw [length_run_proc] at hi
  rw [getp_run_proc procs c a i hi]
  by_cases hic : i = c
  · subst hic
    rw [if_pos rfl]
    simp only []
    omega
  · rw [if_neg hic]
    by_cases hb : 0 < (getp procs i).burst_left
    · rw [if_pos hb]
      exact h i hi
    · rw [if_neg hb]
      exact h i hi

theorem sumBursts_nonneg (procs : List pcb)
    (h : ∀ i, i < procs.length → 0 ≤ (getp procs i).burst_left) :
    0 ≤ sumBursts procs := by
  apply List.sum_nonneg
  intro x hx
  rw [List.mem_map] at hx
  obtain ⟨p, hp, rfl⟩ := hx
  obtain ⟨n, hn, rfl⟩ := List.getElem_of_mem hp
  rw [← getp_eq_getElem _ _ hn]
  exact h n hn

theorem burst_le_sum (procs : List pcb) (i : Nat) (hi : i < procs.length)
    (h : ∀ j, j < procs.length → 0 ≤ (getp procs j).burst_left) :
    (getp procs i).burst_left ≤ sumBursts procs := by
  apply List.single_le_sum
  · intro x hx
    rw [List.mem_map] at hx
    obtain ⟨p, hp, rfl⟩ := hx
    obtain ⟨n, hn, rfl⟩ := List.getElem_of_mem hp
    rw [← getp_eq_getElem _ _ hn]
    exact h n hn
  · rw [getp_eq_getElem _ _ hi]
    exact List.mem_map_of_mem pcb.burst_left (List.getElem_mem hi)

theorem sumBursts_eq_zero (procs : List pcb)
    (h : ∀ i, i < procs.length → (getp procs i).burst_left = 0) :
    sumBursts procs = 0 := by
  apply List.sum_eq_zero
  intro x hx
  rw [List.mem_map] at hx
  obtain ⟨p, hp, rfl⟩ := hx
  obtain ⟨n, hn, rfl⟩ := List.getElem_of_mem hp
  rw [← getp_eq_getElem _ _ hn]
  exact h n hn

theorem rr_run_go_master (quantum : Int) (hq : 1 ≤ quantum) :
    ∀ (fuel : Nat) (procs : List pcb) (current : Nat) (t : Int),
      0 < procs.length → current < procs.length →
      (∀ i, i < procs.length → 0 ≤ (getp procs i).burst_left) →
      (0 < (getp procs current).burst_left → (sumBursts procs).toNat ≤ fuel) →
      ((getp procs current).burst_left ≤ 0 → (sumBursts procs).toNat + 1 ≤ fuel) →
      ∃ final, rr_run_go quantum procs current t fuel =
          RRResult.done final (t + sumBursts procs) ∧
        final.length = procs.length ∧
        ∀ i, i < final.length → (getp final i).burst_left = 0 := by
  intro fuel
  induction fuel with
  | zero =>
    intro procs current t hlen hcur hnn hfl hfd
    exfalso
    have hsum0 : 0 ≤ sumBursts procs := sumBursts_nonneg procs hnn
    by_cases hlive : 0 < (getp procs current).burst_left
    · have h1 := hfl hlive
      have h2 := burst_le_sum procs current hcur hnn
      omega
    · have h1 := hfd (by omega)
      omega
  | succ fuel ih =>
    intro procs current t hlen hcur hnn hfl hfd
    by_cases hlive : 0 < (getp procs current).burst_left
    · simp only [rr_run_go, if_pos hcur, if_pos hlive]
      set A : Int := if (getp procs current).burst_left < quantum then
        (getp procs current).burst_left else quantum with hA
      have hA1 : 1 ≤ A := by
        rw [hA]
        by_cases hbq : (getp procs current).burst_left < quantum
        · rw [if_pos hbq]; omega
        · rw [if_neg hbq]; omega
      have hA2 : A ≤ (getp procs current).burst_left := by
        rw [hA]
        by_cases hbq : (getp procs current).burst_left < quantum
        · rw [if_pos hbq]
        · rw [if_neg hbq]; omega
      have hlen2 : 0 < (run_proc procs current A).length := by
        rw [length_run_proc]; omega
      have hnn2 := nonneg_run_proc procs current A hcur hA2 hnn
      have hs2 : sumBursts (run_proc procs current A) = sumBursts procs - A :=
        sumBursts_run_proc procs current A hcur
      obtain ⟨r, hr⟩ := (rr_next_spec current (run_proc procs current A) hlen2).2.2
      cases r with
      | none =>
        have hall := (rr_next_spec current (run_proc procs current A) hlen2).1 hr
        have hsz : sumBursts (run_proc procs current A) = 0 :=
          sumBursts_eq_zero _ hall
        have hAS : t + A = t + sumBursts procs := by omega
        refine ⟨run_proc procs current A, ?_, length_run_proc procs current A, ?_⟩
        · rw [hr, ← hAS]
        · intro i hi
          exact hall i (by rw [length_run_proc] at hi; rw [length_run_proc]; exact hi)
      | some j =>
        obtain ⟨hjlen, hjne, -⟩ :=
          ((rr_next_spec current (run_proc procs current A) hlen2).2.1) j hr
        have hjlive : 0 < (getp (run_proc procs current A) j).burst_left := by
          have := hnn2 j (by rw [length_run_proc]; rw [length_run_proc] at hjlen; exact hjlen)
          omega
        have hfuel2 : (sumBursts (run_proc procs current A)).toNat ≤ fuel := by
          have h1 := hfl hlive
          have h2 : 0 ≤ sumBursts (run_proc procs current A) := sumBursts_nonneg _ hnn2
          omega
        obtain ⟨final, hrun, hlf, hzf⟩ := ih (run_proc procs current A) j (t + A)
          hlen2 hjlen hnn2 (fun _ => hfuel2) (fun hc => absurd hjlive (by omega))
        refine ⟨final, ?_, by rw [hlf, length_run_proc], hzf⟩
        rw [hr]
        have heq : t + A + sumBursts (run_proc procs current A) = t + sumBursts procs := by
          rw [hs2]; ring
        exact heq ▸ hrun
    · simp only [rr_run_go, if_pos hcur, if_neg hlive]
      obtain ⟨r, hr⟩ := (rr_next_spec current procs hlen).2.2
      cases r with
      | none =>
        have hall := (rr_next_spec current procs hlen).1 hr
        have hsz : sumBursts procs = 0 := sumBursts_eq_zero _ hall
        refine ⟨procs, ?_, rfl, hall⟩
        rw [hr, hsz, add_zero]
      | some j =>
        obtain ⟨hjlen, hjne, -⟩ := ((rr_next_spec current procs hlen).2.1) j hr
        have hjlive : 0 < (getp procs j).burst_left := by
          have := hnn j hjlen
          omega
        have hfuel2 : (sumBursts procs).toNat ≤ fuel := by
          have := hfd (by omega)
          omega
        obtain ⟨final, hrun, hlf, hzf⟩ := ih procs j t hlen hjlen hnn
          (fun _ => hfuel2) (fun hc => absurd hjlive (by omega))
        refine ⟨final, ?_, hlf, hzf⟩
        rw [hr]
        exact hrun

theorem getD_mem_of_lt (bursts : List Int) (j : Nat) (hj : j < bursts.length) :
    bursts.getD j 0 ∈ bursts := by
  rw [List.getD_eq_getElem _ _ hj]
  exact List.getElem_mem hj

theorem schedinv_nonneg (bursts : List Int) (i : Nat) (procs : List pcb) (t : Int)
    (h : SchedInv bursts i procs t) (hnn : ∀ b ∈ bursts, 0 ≤ b) :
    ∀ j, j < procs.length → 0 ≤ (getp procs j).burst_left := by
  intro j hj
  have hjb : j < bursts.length := by rw [← h.1]; exact hj
  rw [h.2.2 j hjb]
  show (0 : Int) ≤ if i ≤ j then bursts.getD j 0 else 0
  by_cases hc : i ≤ j
  · rw [if_pos hc]
    exact hnn _ (getD_mem_of_lt bursts j hjb)
  · rw [if_neg hc]

theorem inv_step_dead (bursts : List Int) (i : Nat) (procs : List pcb) (t : Int)
    (h : SchedInv bursts i procs t) (hi : i < bursts.length)
    (hz : (getp procs i).burst_left = 0) :
    SchedInv bursts (i + 1) procs t := by
  have hb0 : bursts.getD i 0 = 0 := by
    rw [← schedinv_burst_at bursts i procs t h hi]
    exact hz
  obtain ⟨hl, ht, hrec⟩ := h
  have hsum0 : (bursts.take (i + 1)).sum = (bursts.take i).sum := by
    rw [sum_take_succ_getD bursts i hi, hb0, add_zero]
  refine ⟨hl, by rw [ht, hsum0], ?_⟩
  intro j hj
  rw [hrec j hj]
  by_cases hji : j = i
  · subst hji
    have e5 : ¬((0 : Int) < 0) := by omega
    simp only [hb0, ite_self, if_neg e5]
  · rcases Nat.lt_or_ge j i with hlt | hge
    · have e1 : ¬(i ≤ j) := by omega
      have e2 : ¬(i + 1 ≤ j) := by omega
      have e3 : min i j = j := by omega
      have e4 : min (i + 1) j = j := by omega
      simp only [if_neg e1, if_neg e2, e3, e4]
    · have e1 : i ≤ j := by omega
      have e2 : i + 1 ≤ j := by omega
      have e3 : min i j = i := by omega
      have e4 : min (i + 1) j = i + 1 := by omega
      simp only [if_pos e1, if_pos e2, e3, e4, hsum0]

theorem inv_upto (bursts : List Int) :
    ∀ (d i : Nat) (procs : List pcb) (t : Int), SchedInv bursts i procs t →
      i + d ≤ bursts.length →
      (∀ m, i ≤ m → m < i + d → (getp procs m).burst_left = 0) →
      SchedInv bursts (i + d) procs t := by
  intro d
  induction d with
  | zero => intro i procs t h _ _; exact h
  | succ d ih =>
    intro i procs t h hle hzero
    have hstep := inv_step_dead bursts i procs t h (by omega)
      (hzero i (le_refl i) (by omega))
    have := ih (i + 1) procs t hstep (by omega)
      (fun m h1 h2 => hzero m (by omega) (by omega))
    have harith : i + 1 + d = i + (d + 1) := by omega
    rw [harith] at this
    exact this

theorem schedinv_rr_next (bursts : List Int) (procs2 : List pcb) (t : Int) (c j : Nat)
    (hinv : SchedInv bursts (c + 1) procs2 t)
    (hc1 : c + 1 ≤ bursts.length) (hlen : 0 < bursts.length)
    (hr : rr_next c procs2 = Except.ok (some j)) :
    SchedInv bursts j procs2 t ∧ c + 1 ≤ j ∧ j < bursts.length ∧
      (getp procs2 j).burst_left ≠ 0 := by
  have hplen : procs2.length = bursts.length := hinv.1
  have hlen2 : 0 < procs2.length := by omega
  obtain ⟨hjlen, hjne, k, hklen, hkeq, hkzero⟩ := (rr_next_spec c procs2 hlen2).2.1 j hr
  have hjb : j < bursts.length := by omega
  rcases Nat.lt_or_ge (c + 1) bursts.length with hcl | hcl
  · -- c + 1 < length: the scan starts at position c + 1 itself
    have hstart_id : (c + 1) % procs2.length = c + 1 := Nat.mod_eq_of_lt (by omega)
    rw [hstart_id] at hkeq hkzero
    by_cases hw : c + 1 + k < procs2.length
    · have hj_eq : j = c + 1 + k := by rw [hkeq]; exact Nat.mod_eq_of_lt hw
      have hmid : ∀ m, c + 1 ≤ m → m < c + 1 + k → (getp procs2 m).burst_left = 0 := by
        intro m h1 h2
        have hm := hkzero (m - (c + 1)) (by omega)
        have harith : c + 1 + (m - (c + 1)) = m := by omega
        rw [harith, Nat.mod_eq_of_lt (by omega)] at hm
        exact hm
      have hinvj := inv_upto bursts k (c + 1) procs2 t hinv (by omega) hmid
      rw [← hj_eq] at hinvj
      refine ⟨hinvj, by omega, hjb, hjne⟩
    · -- the scan would have to wrap past the start, landing on a completed slot
      exfalso
      have hwrap : procs2.length ≤ c + 1 + k := by omega
      have hj_eq : j = c + 1 + k - procs2.length := by
        rw [hkeq, Nat.mod_eq_sub_mod hwrap, Nat.mod_eq_of_lt (by omega)]
      have hjc : ¬(c + 1 ≤ j) := by omega
      have := hinv.2.2 j hjb
      rw [this] at hjne
      simp only [if_neg hjc] at hjne
      exact hjne rfl
  · -- c + 1 = length: every slot is already complete, contradicting the hit
    exfalso
    have hjc : ¬(c + 1 ≤ j) := by omega
    have := hinv.2.2 j hjb
    rw [this] at hjne
    simp only [if_neg hjc] at hjne
    exact hjne rfl

theorem rr_bigq (bursts : List Int) (quantum : Int)
    (hnn : ∀ b ∈ bursts, 0 ≤ b) (hq : ∀ b ∈ bursts, b ≤ quantum) :
    ∀ (fuel : Nat) (c : Nat) (procs : List pcb) (t : Int),
      SchedInv bursts c procs t → c < bursts.length →
      (0 < (getp procs c).burst_left → (sumBursts procs).toNat ≤ fuel) →
      ((getp procs c).burst_left ≤ 0 → (sumBursts procs).toNat + 1 ≤ fuel) →
      ∃ final, rr_run_go quantum procs c t fuel = RRResult.done final bursts.sum ∧
        SchedInv bursts bursts.length final bursts.sum := by
  intro fuel
  induction fuel with
  | zero =>
    intro c procs t hinv hc hfl hfd
    exfalso
    have hpn := schedinv_nonneg bursts c procs t hinv hnn
    have hclen : c < procs.length := by rw [hinv.1]; exact hc
    have hsum0 : 0 ≤ sumBursts procs := sumBursts_nonneg procs hpn
    by_cases hlive : 0 < (getp procs c).burst_left
    · have h1 := hfl hlive
      have h2 := burst_le_sum procs c hclen hpn
      omega
    · have h1 := hfd (by omega)
      omega
  | succ fuel ih =>
    intro c procs t hinv hc hfl hfd
    have hplen : procs.length = bursts.length := hinv.1
    have hlen : 0 < bursts.length := by omega
    have hclen : c < procs.length := by omega
    have hpn := schedinv_nonneg bursts c procs t hinv hnn
    have hbat := schedinv_burst_at bursts c procs t hinv hc
    by_cases hlive : 0 < (getp procs c).burst_left
    · simp only [rr_run_go, if_pos hclen, if_pos hlive]
      set A : Int := if (getp procs c).burst_left < quantum then
        (getp procs c).burst_left else quantum with hA
      have hAeq : A = bursts.getD c 0 := by
        rw [hA]
        by_cases hbq : (getp procs c).burst_left < quantum
        · rw [if_pos hbq, hbat]
        · rw [if_neg hbq]
          have h1 := hq (bursts.getD c 0) (getD_mem_of_lt bursts c hc)
          rw [hbat] at hbq
          omega
      have hrun_eq : run_proc procs c A = run_proc procs c (bursts.getD c 0) := by
        rw [hAeq]
      have hinv2 : SchedInv bursts (c + 1) (run_proc procs c A) (t + A) := by
        rw [hrun_eq, hAeq]
        exact inv_step_run bursts c procs t hinv hc
      have hlen2 : 0 < (run_proc procs c A).length := by rw [length_run_proc]; omega
      have hs2 : sumBursts (run_proc procs c A) = sumBursts procs - A :=
        sumBursts_run_proc procs c A hclen
      have hnn2 := schedinv_nonneg bursts (c + 1) (run_proc procs c A) (t + A) hinv2 hnn
      obtain ⟨r, hr⟩ := (rr_next_spec c (run_proc procs c A) hlen2).2.2
      cases r with
      | none =>
        have hall := (rr_next_spec c (run_proc procs c A) hlen2).1 hr
        have hup := inv_upto bursts (bursts.length - (c + 1)) (c + 1)
          (run_proc procs c A) (t + A) hinv2 (by omega)
          (fun m h1 h2 => hall m (by rw [length_run_proc]; omega))
        have harith : c + 1 + (bursts.length - (c + 1)) = bursts.length := by omega
        rw [harith] at hup
        have htime : t + A = bursts.sum := by
          have := hup.2.1
          rw [List.take_length] at this
          exact this
        refine ⟨run_proc procs c A, ?_, by rw [← htime]; exact hup⟩
        rw [hr, ← htime]
      | some j =>
        obtain ⟨hinvj, hcj, hjb, hjne⟩ := schedinv_rr_next bursts (run_proc procs c A)
          (t + A) c j hinv2 (by omega) hlen hr
        have hjlen2 : j < (run_proc procs c A).length := by rw [length_run_proc]; omega
        have hjlive : 0 < (getp (run_proc procs c A) j).burst_left := by
          have := hnn2 j hjlen2
          omega
        have hfuel2 : (sumBursts (run_proc procs c A)).toNat ≤ fuel := by
          have h1 := hfl hlive
          have h2 : 0 ≤ sumBursts (run_proc procs c A) := sumBursts_nonneg _ hnn2
          have hA1 : 1 ≤ A := by rw [hAeq, ← hbat]; omega
          omega
        obtain ⟨final, hrunf, hinvf⟩ := ih j (run_proc procs c A) (t + A) hinvj hjb
          (fun _ => hfuel2) (fun hcontra => absurd hjlive (by omega))
        refine ⟨final, ?_, hinvf⟩
        rw [hr]
        exact hrunf
    · simp only [rr_run_go, if_pos hclen, if_neg hlive]
      have hz : (getp procs c).burst_left = 0 := by
        have := hpn c hclen
        omega
      have hinv2 : SchedInv bursts (c + 1) procs t :=
        inv_step_dead bursts c procs t hinv hc hz
      obtain ⟨r, hr⟩ := (rr_next_spec c procs (by omega)).2.2
      cases r with
      | none =>
        have hall := (rr_next_spec c procs (by omega)).1 hr
        have hup := inv_upto bursts (bursts.length - (c + 1)) (c + 1) procs t hinv2
          (by omega) (fun m h1 h2 => hall m (by omega))
        have harith : c + 1 + (bursts.length - (c + 1)) = bursts.length := by omega
        rw [harith] at hup
        have htime : t = bursts.sum := by
          have := hup.2.1
          rw [List.take_length] at this
          exact this
        refine ⟨procs, ?_, by rw [← htime]; exact hup⟩
        rw [hr, ← htime]
      | some j =>
        obtain ⟨hinvj, hcj, hjb, hjne⟩ := schedinv_rr_next bursts procs t c j hinv2
          (by omega) hlen hr
        have hjlen : j < procs.length := by omega
        have hjlive : 0 < (getp procs j).burst_left := by
          have := hpn j hjlen
          omega
        have hfuel2 : (sumBursts procs).toNat ≤ fuel := by
          have := hfd (by omega)
          omega
        obtain ⟨final, hrunf, hinvf⟩ := ih j procs t hinvj hjb
          (fun _ => hfuel2) (fun hcontra => absurd hjlive (by omega))
        refine ⟨final, ?_, hinvf⟩
        rw [hr]
        exact hrunf

theorem run_proc_frozen (procs : List pcb) (c : Nat) (a : Int) (i : Nat)
    (hi : i < procs.length) (hz : (getp procs i).burst_left = 0) (hic : i ≠ c) :
    getp (run_proc procs c a) i = getp procs i := by
  rw [getp_run_proc procs c a i hi, if_neg hic, hz, if_neg (lt_irrefl 0)]

theorem run_proc_wait_frozen (procs : List pcb) (c : Nat) (a : Int) (i : Nat)
    (hi : i < procs.length) (hz : (getp procs i).burst_left = 0) :
    (getp (run_proc procs c a) i).wait = (getp procs i).wait := by
  rw [getp_run_proc procs c a i hi]
  by_cases hic : i = c
  · rw [if_pos hic]
  · rw [if_neg hic, hz, if_neg (lt_irrefl 0)]

theorem fcfs_go_frozen (i : Nat) :
    ∀ (n k : Nat) (procs : List pcb) (t : Int), procs.length - k = n →
      i < procs.length → (getp procs i).burst_left = 0 →
      getp ((fcfs_go procs.length procs k t).1) i = getp procs i := by
  intro n
  induction n with
  | zero =>
    intro k procs t hn hi hz
    have hge : ¬ k < procs.length := by omega
    rw [fcfs_go, dif_neg hge]
  | succ n ih =>
    intro k procs t hn hi hz
    have hlt : k < procs.length := by omega
    rw [fcfs_go, dif_pos hlt]
    have hstable : getp (run_proc procs k (getp procs k).burst_left) i = getp procs i := by
      by_cases hik : i = k
      · subst hik
        rw [getp_run_proc procs i (getp procs i).burst_left i hi, if_pos rfl]
        rcases hgp : getp procs i with ⟨pid, b, w⟩
        rw [hgp] at hz
        simp at hz
        simp [hz]
      · exact run_proc_frozen procs k (getp procs k).burst_left i hi hz hik
    have hlr : procs.length = (run_proc procs k (getp procs k).burst_left).length :=
      (length_run_proc procs k (getp procs k).burst_left).symm
    rw [hlr]
    rw [ih (k + 1) (run_proc procs k (getp procs k).burst_left)
      (t + (getp procs k).burst_left) (by rw [← hlr]; omega) (by rw [← hlr]; exact hi)
      (by rw [hstable]; exact hz)]
    exact hstable

theorem rr_run_go_frozen (quantum : Int) (i : Nat) :
    ∀ (fuel : Nat) (procs : List pcb) (c : Nat) (t : Int) (final : List pcb) (T : Int),
      i < procs.length → (getp procs i).burst_left = 0 →
      rr_run_go quantum procs c t fuel = RRResult.done final T →
      getp final i = getp procs i := by
  intro fuel
  induction fuel with
  | zero =>
    intro procs c t final T hi hz hdone
    simp [rr_run_go] at hdone
  | succ fuel ih =>
    intro procs c t final T hi hz hdone
    by_cases hclen : c < procs.length
    · simp only [rr_run_go, if_pos hclen] at hdone
      by_cases hlive : 0 < (getp procs c).burst_left
      · rw [if_pos hlive] at hdone
        set A : Int := if (getp procs c).burst_left < quantum then
          (getp procs c).burst_left else quantum with hA
        have hic : i ≠ c := by
          intro heq
          rw [heq] at hz
          omega
        have hstable : getp (run_proc procs c A) i = getp procs i :=
          run_proc_frozen procs c A i hi hz hic
        have hi2 : i < (run_proc procs c A).length := by rw [length_run_proc]; exact hi
        cases hrx : rr_next c (run_proc procs c A) with
        | error e =>
          rw [hrx] at hdone
          simp at hdone
        | ok r =>
          rw [hrx] at hdone
          cases r with
          | none =>
            simp only [] at hdone
            injection hdone with h1 h2
            rw [← h1, hstable]
          | some j =>
            simp only [] at hdone
            rw [ih (run_proc procs c A) j (t + A) final T hi2
              (by rw [hstable]; exact hz) hdone]
            exact hstable
      · rw [if_neg hlive] at hdone
        cases hrx : rr_next c procs with
        | error e =>
          rw [hrx] at hdone
          simp at hdone
        | ok r =>
          rw [hrx] at hdone
          cases r with
          | none =>
            simp only [] at hdone
            injection hdone with h1 h2
            rw [← h1]
          | some j =>
            simp only [] at hdone
            exact ih procs j t final T hi hz hdone
    · simp only [rr_run_go, if_neg hclen] at hdone
      simp at hdone

theorem rr_next_not_complete (procs : List pcb) (cur i : Nat)
    (hz : (getp procs i).burst_left = 0) :
    rr_next cur procs ≠ Except.ok (some i) := by
  intro hr
  by_cases hlen : 0 < procs.length
  · obtain ⟨-, hne, -⟩ := (rr_next_spec cur procs hlen).2.1 i hr
    exact hne hz
  · rw [rr_next, if_pos (by omega)] at hr
    exact Except.noConfusion hr

/-- C3: under the Advance preconditions, `run_proc` subtracts exactly
`amount` from the target's remaining burst, leaves the target's wait
unchanged, adds exactly `amount` to the wait of every other process
whose remaining burst is positive, and leaves every other process with
remaining burst `0` completely unchanged. -/
theorem run_proc_effect (procs : List pcb) (target : Nat) (amount : Int)
    (htl : target < procs.length) (ha1 : 1 ≤ amount)
    (ha2 : amount ≤ (getp procs target).burst_left) :
    (run_proc procs target amount).length = procs.length
    ∧ (getp (run_proc procs target amount) target).burst_left
        = (getp procs target).burst_left - amount
    ∧ (getp (run_proc procs target amount) target).wait = (getp procs target).wait
    ∧ ∀ i, i < procs.length → i ≠ target →
        (getp (run_proc procs target amount) i).burst_left
            = (getp procs i).burst_left
        ∧ (0 < (getp procs i).burst_left →
            (getp (run_proc procs target amount) i).wait
              = (getp procs i).wait + amount)
        ∧ ((getp procs i).burst_left = 0 →
            (getp (run_proc procs target amount) i).wait = (getp procs i).wait) := by
  refine ⟨length_run_proc procs target amount, ?_, ?_, ?_⟩
  · rw [getp_run_proc procs target amount target htl, if_pos rfl]
  · rw [getp_run_proc procs target amount target htl, if_pos rfl]
  · intro i hi hit
    rw [getp_run_proc procs target amount i hi, if_neg hit]
    refine ⟨?_, ?_, ?_⟩
    · by_cases hb : 0 < (getp procs i).burst_left
      · rw [if_pos hb]
      · rw [if_neg hb]
    · intro hb
      rw [if_pos hb]
    · intro hb
      rw [hb, if_neg (lt_irrefl 0)]

/-- C6: under the Advance preconditions, `run_proc` preserves
non-negativity of every remaining burst and every accumulated wait. -/
theorem advance_preserves_nonneg (procs : List pcb) (target : Nat) (amount : Int)
    (htl : target < procs.length) (ha1 : 1 ≤ amount)
    (ha2 : amount ≤ (getp procs target).burst_left)
    (hnn : ∀ i, i < procs.length →
      0 ≤ (getp procs i).burst_left ∧ 0 ≤ (getp procs i).wait) :
    ∀ i, i < procs.length →
      0 ≤ (getp (run_proc procs target amount) i).burst_left
      ∧ 0 ≤ (getp (run_proc procs target amount) i).wait := by
  intro i hi
  have hx := hnn i hi
  rw [getp_run_proc procs target amount i hi]
  by_cases hit : i = target
  · subst hit
    rw [if_pos rfl]
    refine ⟨?_, ?_⟩
    · show 0 ≤ (getp procs i).burst_left - amount
      omega
    · show 0 ≤ (getp procs i).wait
      exact hx.2
  · rw [if_neg hit]
    by_cases hb : 0 < (getp procs i).burst_left
    · rw [if_pos hb]
      refine ⟨hx.1, ?_⟩
      show 0 ≤ (getp procs i).wait + amount
      omega
    · rw [if_neg hb]
      exact hx

/-- C7: a complete process (remaining burst `0`) never accrues wait in
any later `run_proc` step, is never returned by `rr_next`, and its whole
record is untouched by the rest of an FCFS or RR run. -/
theorem complete_process_frozen (procs : List pcb) (i : Nat)
    (hi : i < procs.length) (hz : (getp procs i).burst_left = 0) :
    (∀ c a, (getp (run_proc procs c a) i).wait = (getp procs i).wait)
    ∧ (∀ c a, c ≠ i → getp (run_proc procs c a) i = getp procs i)
    ∧ (∀ cur, rr_next cur procs ≠ Except.ok (some i))
    ∧ (∀ k t, getp ((fcfs_go procs.length procs k t).1) i = getp procs i)
    ∧ (∀ quantum c t fuel final T,
        rr_run_go quantum procs c t fuel = RRResult.done final T →
        getp final i = getp procs i) := by
  refine ⟨?_, ?_, ?_, ?_, ?_⟩
  · intro c a
    exact run_proc_wait_frozen procs c a i hi hz
  · intro c a hci
    exact run_proc_frozen procs c a i hi hz (fun h => hci h.symm)
  · intro cur
    exact rr_next_not_complete procs cur i hz
  · intro k t
    exact fcfs_go_frozen i (procs.length - k) k procs t rfl hi hz
  · intro quantum c t fuel final T hdone
    exact rr_run_go_frozen quantum i fuel procs c t final T hi hz hdone

/-- C4: for a non-empty table of non-negative bursts and an in-range
current index, `rr_next` returns `none` exactly when every process is
complete, any index it returns is the first live index in circular
order starting at `(current + 1) mod length`, and in particular a
length-1 table with a live process yields that same index back. -/
theorem rr_next_finds_first_live (procs : List pcb) (current : Nat)
    (hlen : 0 < procs.length) (hcur : current < procs.length)
    (hnn : ∀ i, i < procs.length → 0 ≤ (getp procs i).burst_left) :
    (rr_next current procs = Except.ok none ↔
      ∀ i, i < procs.length → (getp procs i).burst_left = 0)
    ∧ (∀ j, rr_next current procs = Except.ok (some j) →
        0 < (getp procs j).burst_left ∧ j < procs.length ∧
        ∃ k, k < procs.length ∧
          j = ((current + 1) % procs.length + k) % procs.length ∧
          ∀ m, m < k →
            (getp procs (((current + 1) % procs.length + m)
              % procs.length)).burst_left = 0)
    ∧ (procs.length = 1 → 0 < (getp procs 0).burst_left →
        rr_next current procs = Except.ok (some 0)) := by
  have hspec := rr_next_spec current procs hlen
  refine ⟨?_, ?_, ?_⟩
  · constructor
    · exact hspec.1
    · intro hall
      obtain ⟨r, hr⟩ := hspec.2.2
      cases r with
      | none => exact hr
      | some j =>
        obtain ⟨hjlen, hjne, -⟩ := hspec.2.1 j hr
        exact absurd (hall j hjlen) hjne
  · intro j hr
    obtain ⟨hjlen, hjne, k, hk1, hk2, hk3⟩ := hspec.2.1 j hr
    have := hnn j hjlen
    exact ⟨by omega, hjlen, k, hk1, hk2, hk3⟩
  · intro h1 hlive
    obtain ⟨r, hr⟩ := hspec.2.2
    cases r with
    | none =>
      have := hspec.1 hr 0 (by omega)
      omega
    | some j =>
      obtain ⟨hjlen, -, -⟩ := hspec.2.1 j hr
      have hj0 : j = 0 := by omega
      rw [← hj0]
      exact hr

/-- C5: on a non-empty table of non-negative bursts with a positive
quantum, `rr_run` terminates with a `done` result; the iteration budget
`sum of bursts + 1` baked into `rr_run` is proved sufficient. -/
theorem rr_run_terminates (procs : List pcb) (quantum : Int)
    (hne : procs ≠ []) (hq : 1 ≤ quantum)
    (hnn : ∀ i, i < procs.length → 0 ≤ (getp procs i).burst_left) :
    ∃ final t, rr_run procs quantum = RRResult.done final t := by
  have hlen : 0 < procs.length := List.length_pos.mpr hne
  obtain ⟨final, hrun, -, -⟩ := rr_run_go_master quantum hq
    ((sumBursts procs).toNat + 1) procs 0 0 hlen hlen hnn
    (fun _ => by omega) (fun _ => by omega)
  refine ⟨final, 0 + sumBursts procs, ?_⟩
  rw [rr_run]
  exact hrun

/-- C1 (amended): every FCFS run on a table built from non-negative
bursts returns exactly the sum of the bursts, and so does every RR run
with a positive quantum on such a table when it is non-empty; on the
empty table the RR run instead hits the undefined behaviour of
`rr_next`. -/
theorem total_time_eq_sum (bursts : List Int) (quantum : Int)
    (hnn : ∀ b ∈ bursts, 0 ≤ b) (hq : 1 ≤ quantum) :
    (fcfs_run (init_procs bursts)).2 = bursts.sum
    ∧ (bursts ≠ [] →
        ∃ final, rr_run (init_procs bursts) quantum
          = RRResult.done final bursts.sum) := by
  constructor
  · have := (fcfs_run_inv bursts).2.1
    rw [List.take_length] at this
    exact this
  · intro hne
    have hlen : 0 < bursts.length := List.length_pos.mpr hne
    have hlen' : 0 < (init_procs bursts).length := by rw [length_init_procs]; omega
    have hnn' := schedinv_nonneg bursts 0 (init_procs bursts) 0
      (schedinv_init bursts) hnn
    obtain ⟨final, hrun, -, -⟩ := rr_run_go_master quantum hq
      ((sumBursts (init_procs bursts)).toNat + 1) (init_procs bursts) 0 0
      hlen' hlen' hnn' (fun _ => by omega) (fun _ => by omega)
    have heq : (0 : Int) + sumBursts (init_procs bursts) = bursts.sum := by
      rw [sumBursts_init_procs]
      ring
    refine ⟨final, ?_⟩
    rw [rr_run]
    exact heq ▸ hrun

/-- C1 counterexample: the claim quantifies over every table built from
non-negative bursts, including the empty one, but on the empty table the
RR run hits the undefined modulo by zero instead of returning the sum
`0`. -/
theorem rr_run_empty_not_sum :
    rr_run ([] : List pcb) 1 = RRResult.ub ∧ ([] : List Int).sum = 0 := by
  constructor
  · rfl
  · rfl

/-- C2: on the empty table `fcfs_run` does return `0` without error, but
`rr_next` performs `(current + 1) % 0` (modulo by zero, undefined
behaviour) and `rr_run` reads `procs[0]` out of range, so the RR half of
the claim fails on the code. -/
theorem empty_table_eval :
    fcfs_run ([] : List pcb) = ([], 0)
    ∧ rr_next 0 ([] : List pcb) = Except.error ()
    ∧ rr_run ([] : List pcb) 3 = RRResult.ub := by
  refine ⟨?_, rfl, rfl⟩
  rw [fcfs_run, fcfs_go, dif_neg (by decide : ¬(0 : Nat) < ([] : List pcb).length)]

/-- C8: bursts `[7]` with quantum `3`: the RR run terminates through the
single-process wrap-around of `rr_next` and returns `7`. -/
theorem rr_single_process_seven :
    rr_run (init_procs [7]) 3 = RRResult.done [⟨0, 0, 0⟩] 7 := by decide

/-- C9: after an FCFS run on a table built from non-negative bursts,
every process is complete, a process with positive initial burst has
waited exactly the sum of the bursts before it, and a process with
initial burst `0` has wait `0`. -/
theorem fcfs_final_state (bursts : List Int) (hnn : ∀ b ∈ bursts, 0 ≤ b) :
    (fcfs_run (init_procs bursts)).1.length = bursts.length
    ∧ ∀ i, i < bursts.length →
        (getp (fcfs_run (init_procs bursts)).1 i).burst_left = 0
        ∧ (0 < bursts.getD i 0 →
            (getp (fcfs_run (init_procs bursts)).1 i).wait = (bursts.take i).sum)
        ∧ (bursts.getD i 0 = 0 →
            (getp (fcfs_run (init_procs bursts)).1 i).wait = 0) := by
  have h := fcfs_run_inv bursts
  refine ⟨h.1, ?_⟩
  intro i hi
  have hrec := h.2.2 i hi
  rw [hrec]
  have e1 : ¬(bursts.length ≤ i) := by omega
  have e2 : min bursts.length i = i := by omega
  refine ⟨?_, ?_, ?_⟩
  · show (if bursts.length ≤ i then bursts.getD i 0 else 0) = 0
    rw [if_neg e1]
  · intro hb
    show (if 0 < bursts.getD i 0 then (bursts.take (min bursts.length i)).sum else 0)
      = (bursts.take i).sum
    rw [if_pos hb, e2]
  · intro hb
    show (if 0 < bursts.getD i 0 then (bursts.take (min bursts.length i)).sum else 0) = 0
    rw [hb, if_neg (lt_irrefl 0)]

/-- C10: on a non-empty table built from non-negative bursts, any
quantum at least as large as every burst makes the RR run return the
very same final table and total time as the FCFS run. -/
theorem rr_eq_fcfs_large_quantum (bursts : List Int) (quantum : Int)
    (hne : bursts ≠ []) (hnn : ∀ b ∈ bursts, 0 ≤ b)
    (hq : ∀ b ∈ bursts, b ≤ quantum) :
    rr_run (init_procs bursts) quantum =
      RRResult.done (fcfs_run (init_procs bursts)).1
        (fcfs_run (init_procs bursts)).2 := by
  have hlen : 0 < bursts.length := List.length_pos.mpr hne
  obtain ⟨final, hrun, hinvf⟩ := rr_bigq bursts quantum hnn hq
    ((sumBursts (init_procs bursts)).toNat + 1) 0 (init_procs bursts) 0
    (schedinv_init bursts) hlen (fun _ => by omega) (fun _ => by omega)
  obtain ⟨heq_l, heq_t⟩ := schedinv_unique bursts final
    (fcfs_run (init_procs bursts)).1 bursts.sum (fcfs_run (init_procs bursts)).2
    hinvf (fcfs_run_inv bursts)
  rw [rr_run, hrun, heq_l, heq_t]

/-- Witness for C3 on the table `[(0,5,0), (1,0,2), (2,3,1)]`, target
`0`, amount `2`. -/
theorem run_proc_effect_witness :
    ((0 : Nat) < ([⟨0, 5, 0⟩, ⟨1, 0, 2⟩, ⟨2, 3, 1⟩] : List pcb).length
      ∧ (1 : Int) ≤ 2
      ∧ (2 : Int) ≤ (getp [⟨0, 5, 0⟩, ⟨1, 0, 2⟩, ⟨2, 3, 1⟩] 0).burst_left)
    ∧ ((run_proc [⟨0, 5, 0⟩, ⟨1, 0, 2⟩, ⟨2, 3, 1⟩] 0 2).length
        = ([⟨0, 5, 0⟩, ⟨1, 0, 2⟩, ⟨2, 3, 1⟩] : List pcb).length
      ∧ (getp (run_proc [⟨0, 5, 0⟩, ⟨1, 0, 2⟩, ⟨2, 3, 1⟩] 0 2) 0).burst_left
          = (getp [⟨0, 5, 0⟩, ⟨1, 0, 2⟩, ⟨2, 3, 1⟩] 0).burst_left - 2
      ∧ (getp (run_proc [⟨0, 5, 0⟩, ⟨1, 0, 2⟩, ⟨2, 3, 1⟩] 0 2) 0).wait
          = (getp [⟨0, 5, 0⟩, ⟨1, 0, 2⟩, ⟨2, 3, 1⟩] 0).wait
      ∧ ∀ i, i < ([⟨0, 5, 0⟩, ⟨1, 0, 2⟩, ⟨2, 3, 1⟩] : List pcb).length → i ≠ 0 →
          (getp (run_proc [⟨0, 5, 0⟩, ⟨1, 0, 2⟩, ⟨2, 3, 1⟩] 0 2) i).burst_left
              = (getp [⟨0, 5, 0⟩, ⟨1, 0, 2⟩, ⟨2, 3, 1⟩] i).burst_left
          ∧ (0 < (getp [⟨0, 5, 0⟩, ⟨1, 0, 2⟩, ⟨2, 3, 1⟩] i).burst_left →
              (getp (run_proc [⟨0, 5, 0⟩, ⟨1, 0, 2⟩, ⟨2, 3, 1⟩] 0 2) i).wait
                = (getp [⟨0, 5, 0⟩, ⟨1, 0, 2⟩, ⟨2, 3, 1⟩] i).wait + 2)
          ∧ ((getp [⟨0, 5, 0⟩, ⟨1, 0, 2⟩, ⟨2, 3, 1⟩] i).burst_left = 0 →
              (getp (run_proc [⟨0, 5, 0⟩, ⟨1, 0, 2⟩, ⟨2, 3, 1⟩] 0 2) i).wait
                = (getp [⟨0, 5, 0⟩, ⟨1, 0, 2⟩, ⟨2, 3, 1⟩] i).wait)) :=
  ⟨⟨by decide, by decide, by decide⟩,
    run_proc_effect [⟨0, 5, 0⟩, ⟨1, 0, 2⟩, ⟨2, 3, 1⟩] 0 2
      (by decide) (by decide) (by decide)⟩

/-- Witness for C6 on the table `[(0,3,1), (1,0,2)]`, target `0`,
amount `3`. -/
theorem advance_preserves_nonneg_witness :
    ((0 : Nat) < ([⟨0, 3, 1⟩, ⟨1, 0, 2⟩] : List pcb).length
      ∧ (1 : Int) ≤ 3
      ∧ (3 : Int) ≤ (getp [⟨0, 3, 1⟩, ⟨1, 0, 2⟩] 0).burst_left
      ∧ (∀ i, i < ([⟨0, 3, 1⟩, ⟨1, 0, 2⟩] : List pcb).length →
          0 ≤ (getp [⟨0, 3, 1⟩, ⟨1, 0, 2⟩] i).burst_left
          ∧ 0 ≤ (getp [⟨0, 3, 1⟩, ⟨1, 0, 2⟩] i).wait))
    ∧ (∀ i, i < ([⟨0, 3, 1⟩, ⟨1, 0, 2⟩] : List pcb).length →
        0 ≤ (getp (run_proc [⟨0, 3, 1⟩, ⟨1, 0, 2⟩] 0 3) i).burst_left
        ∧ 0 ≤ (getp (run_proc [⟨0, 3, 1⟩, ⟨1, 0, 2⟩] 0 3) i).wait) :=
  ⟨⟨by decide, by decide, by decide, by decide⟩,
    advance_preserves_nonneg [⟨0, 3, 1⟩, ⟨1, 0, 2⟩] 0 3
      (by decide) (by decide) (by decide) (by decide)⟩

/-- Witness for C7 on the table `[(0,0,4), (1,2,0)]` with the complete
process at index `0`. -/
theorem complete_process_frozen_witness :
    ((0 : Nat) < ([⟨0, 0, 4⟩, ⟨1, 2, 0⟩] : List pcb).length
      ∧ (getp [⟨0, 0, 4⟩, ⟨1, 2, 0⟩] 0).burst_left = 0)
    ∧ ((∀ c a, (getp (run_proc [⟨0, 0, 4⟩, ⟨1, 2, 0⟩] c a) 0).wait
          = (getp [⟨0, 0, 4⟩, ⟨1, 2, 0⟩] 0).wait)
      ∧ (∀ c a, c ≠ 0 →
          getp (run_proc [⟨0, 0, 4⟩, ⟨1, 2, 0⟩] c a) 0 = getp [⟨0, 0, 4⟩, ⟨1, 2, 0⟩] 0)
      ∧ (∀ cur, rr_next cur [⟨0, 0, 4⟩, ⟨1, 2, 0⟩] ≠ Except.ok (some 0))
      ∧ (∀ k t, getp ((fcfs_go ([⟨0, 0, 4⟩, ⟨1, 2, 0⟩] : List pcb).length
            [⟨0, 0, 4⟩, ⟨1, 2, 0⟩] k t).1) 0 = getp [⟨0, 0, 4⟩, ⟨1, 2, 0⟩] 0)
      ∧ (∀ quantum c t fuel final T,
          rr_run_go quantum [⟨0, 0, 4⟩, ⟨1, 2, 0⟩] c t fuel = RRResult.done final T →
          getp final 0 = getp [⟨0, 0, 4⟩, ⟨1, 2, 0⟩] 0)) :=
  ⟨⟨by decide, by decide⟩,
    complete_process_frozen [⟨0, 0, 4⟩, ⟨1, 2, 0⟩] 0 (by decide) (by decide)⟩

/-- Witness for C4 on the table `[(0,0,0), (1,3,0)]` with current index
`1`: the scan starts at `(1+1) mod 2 = 0`, skips the completed process
`0` and returns `1` itself. -/
theorem rr_next_finds_first_live_witness :
    ((0 : Nat) < ([⟨0, 0, 0⟩, ⟨1, 3, 0⟩] : List pcb).length
      ∧ (1 : Nat) < ([⟨0, 0, 0⟩, ⟨1, 3, 0⟩] : List pcb).length
      ∧ (∀ i, i < ([⟨0, 0, 0⟩, ⟨1, 3, 0⟩] : List pcb).length →
          0 ≤ (getp [⟨0, 0, 0⟩, ⟨1, 3, 0⟩] i).burst_left))
    ∧ ((rr_next 1 [⟨0, 0, 0⟩, ⟨1, 3, 0⟩] = Except.ok none ↔
        ∀ i, i < ([⟨0, 0, 0⟩, ⟨1, 3, 0⟩] : List pcb).length →
          (getp [⟨0, 0, 0⟩, ⟨1, 3, 0⟩] i).burst_left = 0)
      ∧ (∀ j, rr_next 1 [⟨0, 0, 0⟩, ⟨1, 3, 0⟩] = Except.ok (some j) →
          0 < (getp [⟨0, 0, 0⟩, ⟨1, 3, 0⟩] j).burst_left
          ∧ j < ([⟨0, 0, 0⟩, ⟨1, 3, 0⟩] : List pcb).length
          ∧ ∃ k, k < ([⟨0, 0, 0⟩, ⟨1, 3, 0⟩] : List pcb).length
            ∧ j = ((1 + 1) % ([⟨0, 0, 0⟩, ⟨1, 3, 0⟩] : List pcb).length + k)
                % ([⟨0, 0, 0⟩, ⟨1, 3, 0⟩] : List pcb).length
            ∧ ∀ m, m < k →
                (getp [⟨0, 0, 0⟩, ⟨1, 3, 0⟩]
                  (((1 + 1) % ([⟨0, 0, 0⟩, ⟨1, 3, 0⟩] : List pcb).length + m)
                    % ([⟨0, 0, 0⟩, ⟨1, 3, 0⟩] : List pcb).length)).burst_left = 0)
      ∧ (([⟨0, 0, 0⟩, ⟨1, 3, 0⟩] : List pcb).length = 1 →
          0 < (getp [⟨0, 0, 0⟩, ⟨1, 3, 0⟩] 0).burst_left →
          rr_next 1 [⟨0, 0, 0⟩, ⟨1, 3, 0⟩] = Except.ok (some 0))) :=
  ⟨⟨by decide, by decide, by decide⟩,
    rr_next_finds_first_live [⟨0, 0, 0⟩, ⟨1, 3, 0⟩] 1
      (by decide) (by decide) (by decide)⟩

/-- Witness for C5 on the table `[(0,2,0), (1,1,0)]` with quantum `1`. -/
theorem rr_run_terminates_witness :
    (([⟨0, 2, 0⟩, ⟨1, 1, 0⟩] : List pcb) ≠ []
      ∧ (1 : Int) ≤ 1
      ∧ (∀ i, i < ([⟨0, 2, 0⟩, ⟨1, 1, 0⟩] : List pcb).length →
          0 ≤ (getp [⟨0, 2, 0⟩, ⟨1, 1, 0⟩] i).burst_left))
    ∧ (∃ final t, rr_run [⟨0, 2, 0⟩, ⟨1, 1, 0⟩] 1 = RRResult.done final t) :=
  ⟨⟨by decide, by decide, by decide⟩,
    rr_run_terminates [⟨0, 2, 0⟩, ⟨1, 1, 0⟩] 1 (by decide) (by decide) (by decide)⟩

/-- Witness for C1 (amended) on the bursts `[2, 3]` with quantum `2`. -/
theorem total_time_eq_sum_witness :
    ((∀ b ∈ ([2, 3] : List Int), 0 ≤ b) ∧ (1 : Int) ≤ 2)
    ∧ ((fcfs_run (init_procs [2, 3])).2 = ([2, 3] : List Int).sum
      ∧ (([2, 3] : List Int) ≠ [] →
          ∃ final, rr_run (init_procs [2, 3]) 2
            = RRResult.done final ([2, 3] : List Int).sum)) :=
  ⟨⟨by decide, by decide⟩, total_time_eq_sum [2, 3] 2 (by decide) (by decide)⟩

/-- Witness for C9 on the bursts `[3, 0, 2]`. -/
theorem fcfs_final_state_witness :
    (∀ b ∈ ([3, 0, 2] : List Int), 0 ≤ b)
    ∧ ((fcfs_run (init_procs [3, 0, 2])).1.length = ([3, 0, 2] : List Int).length
      ∧ ∀ i, i < ([3, 0, 2] : List Int).length →
          (getp (fcfs_run (init_procs [3, 0, 2])).1 i).burst_left = 0
          ∧ (0 < ([3, 0, 2] : List Int).getD i 0 →
              (getp (fcfs_run (init_procs [3, 0, 2])).1 i).wait
                = (([3, 0, 2] : List Int).take i).sum)
          ∧ (([3, 0, 2] : List Int).getD i 0 = 0 →
              (getp (fcfs_run (init_procs [3, 0, 2])).1 i).wait = 0)) :=
  ⟨by decide, fcfs_final_state [3, 0, 2] (by decide)⟩

/-- Witness for C10 on the bursts `[2, 0, 1]` with quantum `5`. -/
theorem rr_eq_fcfs_large_quantum_witness :
    (([2, 0, 1] : List Int) ≠ []
      ∧ (∀ b ∈ ([2, 0, 1] : List Int), 0 ≤ b)
      ∧ (∀ b ∈ ([2, 0, 1] : List Int), b ≤ 5))
    ∧ rr_run (init_procs [2, 0, 1]) 5 =
        RRResult.done (fcfs_run (init_procs [2, 0, 1])).1
          (fcfs_run (init_procs [2, 0, 1])).2 :=
  ⟨⟨by decide, by decide, by decide⟩,
    rr_eq_fcfs_large_quantum [2, 0, 1] 5 (by decide) (by decide) (by decide)⟩
